import Mathlib

/-!
Shallow embedding of the active-inference decision core.

Conventions used throughout:
* JavaScript floating-point numbers are modelled as `ℚ` (exact rationals);
  `Math.exp` is an abstract parameter `e : ℚ → ℚ` wherever it occurs, and
  `Math.log` is modelled as `Real.log` at the `ℝ` boundary.
* JavaScript objects `Record<K, number>` are modelled as a list of keys
  (mirroring `Object.keys` insertion order) together with a total value
  function; lookups with `?? 0` on absent keys are modelled by guarding on
  key membership.
* Code that can throw (`reduce` of an empty array, member access on
  `undefined`) is modelled with `Option`: `none` is the error branch.
* Mutation is modelled by explicit state passing: a method that mutates
  `this` becomes a function returning the updated record.
-/

variable {A B O S : Type}

/-- Mulberry32 state advance, from `Random.next`:
`this.state = (this.state + 0x6d2b79f5) | 0`.  The 32-bit signed-integer
coercions of JavaScript are tracked through the unsigned bit pattern,
so the state is a natural number reduced modulo `2^32`. -/
def Random.nextState (s : Nat) : Nat := (s + 0x6d2b79f5) % 4294967296

/-- Mulberry32 output scrambling, from `Random.next`:
`t = Math.imul(state ^ (state >>> 15), 1 | state)`,
`t = (t + Math.imul(t ^ (t >>> 7), 61 | t)) ^ t`,
result `(t ^ (t >>> 14)) >>> 0`.  `Math.imul` is multiplication modulo
`2^32` on bit patterns; `>>>` is a logical shift of the bit pattern. -/
def Random.output (s : Nat) : Nat :=
  let t1 := ((s ^^^ (s >>> 15)) * (1 ||| s)) % 4294967296
  let t2 := ((t1 + ((t1 ^^^ (t1 >>> 7)) * (61 ||| t1)) % 4294967296) % 4294967296) ^^^ t1
  t2 ^^^ (t2 >>> 14)

/-- One draw of the seeded generator `Random.next()`: advances the state and
returns a rational in `[0, 1)` (the JavaScript code divides by `4294967296`)
together with the advanced state. -/
def Random.next (s : Nat) : ℚ × Nat :=
  let s2 := Random.nextState s
  ((Random.output s2 : ℚ) / 4294967296, s2)

/-- Largest element of a nonempty list, modelling `Math.max(...arr)` for a
nonempty `arr`. -/
def LinearAlgebra.maxOf (x : ℚ) (xs : List ℚ) : ℚ := xs.foldl max x

/-- Softmax `LinearAlgebra.softmax(arr, beta)` with `Math.exp` abstracted as `e`.
On the empty array the JavaScript `exp.reduce((a, b) => a + b)` throws
(`Reduce of empty array with no initial value`); that error branch is
`none`.  Otherwise: subtract the maximum, exponentiate with gain `beta`,
normalize by the sum. -/
def LinearAlgebra.softmax (e : ℚ → ℚ) (arr : List ℚ) (beta : ℚ) : Option (List ℚ) :=
  match arr with
  | [] => none
  | x :: xs =>
    let m := LinearAlgebra.maxOf x xs
    let ex := (x :: xs).map (fun v => e (beta * (v - m)))
    let s := ex.sum
    some (ex.map (fun v => v / s))

/-- Softmin of the source: `LinearAlgebra.softmin(arr, beta) = softmax(arr.map(x => -x), beta)`. -/
def LinearAlgebra.softmin (e : ℚ → ℚ) (arr : List ℚ) (beta : ℚ) : Option (List ℚ) :=
  LinearAlgebra.softmax e (arr.map (fun x => -x)) beta

/-- Normalization `LinearAlgebra.normalize(arr)`: divide every entry by the array sum
(the JavaScript `reduce` here has initial value `0`, so the empty array is
fine). -/
def LinearAlgebra.normalize (arr : List ℚ) : List ℚ :=
  arr.map (fun x => x / arr.sum)

/-- Discrete categorical belief (`DiscreteBelief`): the finite, ordered key
list of the `distribution` object together with the stored values. -/
structure DBelief (S : Type) where
  states : List S
  distribution : S → ℚ

/-- Lookup `DiscreteBelief.probability(state)`: stored value, or `0` if the state is
not a key of the distribution (`this.distribution[state] ?? 0`). -/
def DBelief.probability [DecidableEq S] (b : DBelief S) (s : S) : ℚ :=
  if s ∈ b.states then b.distribution s else 0

/-- Weighted likelihood sum accumulated by the loop of
`DiscreteBelief.update`: `sum += this.distribution[state] * (likelihood[state] ?? 0)`
over `this.states`.  The likelihood argument is a total function with the
`?? 0` default built in. -/
def DBelief.weightedSum (b : DBelief S) (likelihood : S → ℚ) : ℚ :=
  (b.states.map (fun s => b.distribution s * likelihood s)).sum

/-- Bayes update `DiscreteBelief.update(likelihood)`: `newDist[s] = prior(s) * likelihood(s)`
over the belief states; if the accumulated sum is positive every entry is
divided by it, otherwise the entries are returned unnormalized.  The key
set of the result is the key set of the prior. -/
def DBelief.update [DecidableEq S] (b : DBelief S) (likelihood : S → ℚ) : DBelief S :=
  let sum := DBelief.weightedSum b likelihood
  { states := b.states
    distribution := fun s =>
      if 0 < sum then b.distribution s * likelihood s / sum
      else b.distribution s * likelihood s }

/-- KL divergence `Belief.kl(other)`: sum of `p * log(p / q)` over the states of `this`
with `p > 0`, where `q = other.probability(state) || 1e-10` — the `||`
substitutes the floor `1e-10` exactly when the other belief assigns `0`. -/
noncomputable def DBelief.kl [DecidableEq S] (b other : DBelief S) : ℝ :=
  (b.states.map (fun s =>
    let p := b.probability s
    let q := if other.probability s = 0 then (1 : ℚ) / 10000000000 else other.probability s
    if 0 < p then (p : ℝ) * Real.log ((p : ℝ) / (q : ℝ)) else 0)).sum

/-- Continuous Gaussian belief: a pair `(mean, variance)`.  The
`GaussianBelief` constructor stores both fields unchecked. -/
structure GaussianBelief where
  mean : ℚ
  variance : ℚ

/-- Linear Gaussian observation model `y = scale·x + bias + noise`; the
constructor stores `scale`, `bias ?? 0` and `noise` unchecked. -/
structure GaussianObservation where
  scale : ℚ
  bias : ℚ
  noise : ℚ

/-- Kalman-filter update `GaussianObservation.update(belief, observation)`:
`K = c·σ² / (c²·σ² + R)`, posterior mean `μ + K·(y − c·μ − b)`, posterior
variance `(1 − K·c)·σ²`. -/
def GaussianObservation.update (m : GaussianObservation) (belief : GaussianBelief)
    (observation : ℚ) : GaussianBelief :=
  let c := m.scale
  let predictedObs := c * belief.mean + m.bias
  let innovationVar := c * c * belief.variance + m.noise
  let K := c * belief.variance / innovationVar
  { mean := belief.mean + K * (observation - predictedObs)
    variance := (1 - K * c) * belief.variance }

/-- Predicted observation mean `GaussianObservation.expectedObservation(belief) = c·μ + b`. -/
def GaussianObservation.expectedObservation (m : GaussianObservation)
    (belief : GaussianBelief) : ℚ :=
  m.scale * belief.mean + m.bias

/-- Discrete observation model interface as used by the EFE scorer: the
observation key list and the total lookup `probability(o, s)`
(`this.matrix[observation]?.[state] ?? 0`). -/
structure ObservationModel (O S : Type) where
  observations : List O
  prob : O → S → ℚ

/-- Predicted observation probability `Q(o) = Σ_s P(o|s) · Q(s)` accumulated
by the inner loop of `computeRisk` over the states of the predicted
belief. -/
def expectedObsProb [DecidableEq S] (m : ObservationModel O S) (b : DBelief S) (o : O) : ℚ :=
  (b.states.map (fun s => m.prob o s * b.probability s)).sum

/-- Risk term `computeRisk(predictedBelief, observationModel, preferences)`: for each
observation, `risk -= Q(o) * (preferences[o] ?? -10)` guarded by
`Q(o) > 0`.  Preferences are a partial map, `none` meaning the observation
has no configured entry. -/
def computeRisk [DecidableEq S] (b : DBelief S) (m : ObservationModel O S)
    (preferences : O → Option ℚ) : ℚ :=
  m.observations.foldl (fun risk o =>
    let expObs := expectedObsProb m b o
    let preferredLogProb := (preferences o).getD (-10)
    if 0 < expObs then risk - expObs * preferredLogProb else risk) 0

/-- Risk written exactly as the specification states it:
`−Σ_o Q(o)·pref(o)` over the configured observations, with `pref(o)` the
configured log-preference and the fixed default `−10` for observations
without an entry.  (Terms with `Q(o) = 0` vanish, so skipping them does not
change the sum.) -/
def riskFormula [DecidableEq S] (b : DBelief S) (m : ObservationModel O S)
    (preferences : O → Option ℚ) : ℚ :=
  -(m.observations.map (fun o => expectedObsProb m b o * (preferences o).getD (-10))).sum

/-- Dirichlet-learnable observation model: observation keys, state keys and
the concentration table `a[o][s]` (a total function meaningful on the
declared keys). -/
structure DirichletObservation (O S : Type) where
  observations : List O
  states : List S
  concentrations : O → S → ℚ

/-- Column sum over the configured observations of `a[o2][s]`, from
`DirichletObservation.normalize`. -/
def DirichletObservation.colSum (m : DirichletObservation O S) (s : S) : ℚ :=
  (m.observations.map (fun o => m.concentrations o s)).sum

/-- Normalized matrix cell from `DirichletObservation.normalize`:
`colSums[s] > 0 ? a[o][s] / colSums[s] : 0`. -/
def DirichletObservation.matrixEntry (m : DirichletObservation O S) (o : O) (s : S) : ℚ :=
  if 0 < m.colSum s then m.concentrations o s / m.colSum s else 0

/-- Lookup `DirichletObservation.probability(observation, state)`:
`this.matrix[observation]?.[state] ?? 0` — the normalized cell when both
keys are configured, else `0`. -/
def DirichletObservation.probability [DecidableEq O] [DecidableEq S]
    (m : DirichletObservation O S) (o : O) (s : S) : ℚ :=
  if o ∈ m.observations ∧ s ∈ m.states then m.matrixEntry o s else 0

/-- Likelihood row `DirichletObservation.getLikelihood(observation)`:
`this.matrix[observation] ?? {}`, read through the `likelihood[state] ?? 0`
default of the belief update — an unknown observation yields the all-zero
likelihood. -/
def DirichletObservation.getLikelihood [DecidableEq O] [DecidableEq S]
    (m : DirichletObservation O S) (o : O) (s : S) : ℚ :=
  if o ∈ m.observations ∧ s ∈ m.states then m.matrixEntry o s else 0

/-- Conjugate update `DirichletObservation.learn(observation, posteriorBelief)`:
`this.concentrations[observation][state] += posteriorBelief[state] ?? 0`
for every configured state.  When the observation is not a key of the
concentration structure, `this.concentrations[observation]` is `undefined`
and the element access throws — the `none` branch. -/
def DirichletObservation.learn [DecidableEq O] [DecidableEq S]
    (m : DirichletObservation O S) (observation : O) (posteriorBelief : S → ℚ) :
    Option (DirichletObservation O S) :=
  if observation ∈ m.observations then
    some { m with concentrations := fun o s =>
      if o = observation ∧ s ∈ m.states then m.concentrations o s + posteriorBelief s
      else m.concentrations o s }
  else none

/-- State of the generic `Agent` after construction: the configuration
fields stored by the constructor plus the mutable fields (`_belief`,
the 32-bit state of `_random`, `_previousBelief`, `_previousAction`).  The
transition model contributes its action list and `predict`; the observation
model contributes `update`; `computeEFE` is the pluggable scorer. -/
structure Agent (A B O : Type) where
  actions : List A
  predict : B → A → B
  obsUpdate : B → O → B
  computeEFE : B → ℚ
  planningHorizon : Nat
  precision : ℚ
  habits : List (A × ℚ)
  beamWidth : Nat
  belief : B
  rng : Nat
  previousBelief : Option B
  previousAction : Option A

/-- The `Agent` constructor: deep-copies the belief (value semantics here),
stores the models, clamps `planningHorizon` to `Math.max(1, Math.floor(h))`,
`precision` to `Math.max(0, p)` and `beamWidth` to
`Math.max(0, Math.floor(w))`, and initializes the previous-step fields to
`null`.  `seed` is the state of the supplied `Random`.  No configuration
validation of any kind is performed. -/
def mkAgent (belief : B) (actions : List A) (predict : B → A → B)
    (obsUpdate : B → O → B) (computeEFE : B → ℚ) (seed : Nat)
    (planningHorizon : ℚ) (precision : ℚ) (habits : List (A × ℚ))
    (beamWidth : ℚ) : Agent A B O :=
  { actions := actions
    predict := predict
    obsUpdate := obsUpdate
    computeEFE := computeEFE
    planningHorizon := (max 1 (Int.floor planningHorizon)).toNat
    precision := max 0 precision
    habits := habits
    beamWidth := (max 0 (Int.floor beamWidth)).toNat
    belief := belief
    rng := seed
    previousBelief := none
    previousAction := none }

/-- Transient beam-search entry of `Agent.act`: partial policy, cumulative
EFE, predicted belief. -/
structure BeamEntry (A B : Type) where
  policy : List A
  efe : ℚ
  belief : B

/-- Initial beams of `Agent.act`: one per action, with the one-step
prediction and its EFE score. -/
def initBeams (ag : Agent A B O) : List (BeamEntry A B) :=
  ag.actions.map (fun action =>
    let predicted := ag.predict ag.belief action
    { policy := [action], efe := ag.computeEFE predicted, belief := predicted })

/-- One iteration of the beam-search loop of `Agent.act`: expand every beam
by every action, then — only when `beamWidth > 0` and the expansion exceeds
it — sort ascending by cumulative EFE (a stable sort, as JavaScript
`Array.prototype.sort`) and keep the first `beamWidth` entries. -/
def beamStep (ag : Agent A B O) (beams : List (BeamEntry A B)) : List (BeamEntry A B) :=
  let nextBeams := beams.flatMap (fun beam =>
    ag.actions.map (fun action =>
      let predicted := ag.predict beam.belief action
      { policy := beam.policy ++ [action]
        efe := beam.efe + ag.computeEFE predicted
        belief := predicted }))
  if 0 < ag.beamWidth ∧ ag.beamWidth < nextBeams.length then
    (nextBeams.mergeSort (fun x y => x.efe ≤ y.efe)).take ag.beamWidth
  else nextBeams

/-- The beam population at the end of the search loop of `Agent.act`:
`planningHorizon − 1` expansion steps applied to the initial beams. -/
def actBeams (ag : Agent A B O) : List (BeamEntry A B) :=
  (beamStep ag)^[ag.planningHorizon - 1] (initBeams ag)

/-- Habit prior `Agent.getPolicyHabit(policy)`: product of the habit weights of the actions,
with default `1` for unlisted actions; `1` when no habits are configured. -/
def getPolicyHabit [DecidableEq A] (habits : List (A × ℚ)) (policy : List A) : ℚ :=
  if habits.isEmpty then 1
  else policy.foldl (fun prior action => prior * ((habits.lookup action).getD 1)) 1

/-- The cumulative-distribution walk of `Agent.sampleIndex`: return the
first index whose cumulative probability exceeds the draw, or the last
index when the loop runs out. -/
def sampleWalk (rand : ℚ) : List ℚ → ℚ → Nat → Nat
  | [], _, i => i - 1
  | p :: rest, cumulative, i =>
    let c2 := cumulative + p
    if rand < c2 then i else sampleWalk rand rest c2 (i + 1)

/-- Index walk of `Agent.sampleIndex(probs)` minus the draw itself: walk the cumulative
distribution starting from `0`. -/
def sampleIndex (rand : ℚ) (probs : List ℚ) : Nat := sampleWalk rand probs 0 0

/-- Action selection `Agent.act()` of the generic agent: run the beam search, softmin the
cumulative EFEs with the configured precision, re-weight by habits when
configured, draw once from the generator, walk the cumulative distribution
and return the first action of the sampled policy together with the updated
agent.  `none` is the thrown-exception branch (empty action set, or an
out-of-range index). -/
def Agent.act [DecidableEq A] (e : ℚ → ℚ) (ag : Agent A B O) : Option (A × Agent A B O) :=
  let beams := actBeams ag
  let policies := beams.map (fun b => b.policy)
  let policyEFEs := beams.map (fun b => b.efe)
  (LinearAlgebra.softmin e policyEFEs ag.precision).bind (fun probs =>
    let policyProbs :=
      if ag.habits.isEmpty then probs
      else LinearAlgebra.normalize
        (List.zipWith (fun p policy => p * getPolicyHabit ag.habits policy) probs policies)
    let draw := Random.next ag.rng
    let idx := sampleIndex draw.1 policyProbs
    ((policies.get? idx).bind List.head?).map (fun action => (action, { ag with rng := draw.2 })))

/-- Perception `Agent.observe(observation)`: delegate to the update of the
observation model and replace the belief. -/
def Agent.observe (ag : Agent A B O) (observation : O) : Agent A B O :=
  { ag with belief := ag.obsUpdate ag.belief observation }

/-- Cycle `Agent.step(observation)` without a learning callback configured:
observe, act, then record the post-observation belief and the chosen action
as the previous-step fields. -/
def Agent.step [DecidableEq A] (e : ℚ → ℚ) (ag : Agent A B O) (observation : O) :
    Option (A × Agent A B O) :=
  let ag1 := ag.observe observation
  (ag1.act e).map (fun p =>
    (p.1, { p.2 with previousBelief := some p.2.belief, previousAction := some p.1 }))

/-- One external call to the agent: `observe`, `act` or `step`. -/
inductive AgentCall (O : Type) where
  | observe (observation : O)
  | act
  | step (observation : O)

/-- Run a sequence of `observe`/`act`/`step` calls against an agent,
collecting the actions returned; `none` if any call throws. -/
def runCalls [DecidableEq A] (e : ℚ → ℚ) :
    Agent A B O → List (AgentCall O) → Option (List A × Agent A B O)
  | ag, [] => some ([], ag)
  | ag, AgentCall.observe o :: rest => runCalls e (ag.observe o) rest
  | ag, AgentCall.act :: rest =>
    (ag.act e).bind (fun p =>
      (runCalls e p.2 rest).map (fun q => (p.1 :: q.1, q.2)))
  | ag, AgentCall.step o :: rest =>
    (ag.step e o).bind (fun p =>
      (runCalls e p.2 rest).map (fun q => (p.1 :: q.1, q.2)))

/-- Historical `Agent.generatePolicies(depth)`: for `depth <= 1` one
singleton policy per action, otherwise every action prepended to every
policy of depth `depth − 1`. -/
def generatePolicies (actions : List A) : Nat → List (List A)
  | 0 => actions.map (fun a => [a])
  | 1 => actions.map (fun a => [a])
  | depth + 2 =>
    actions.flatMap (fun action =>
      (generatePolicies actions (depth + 1)).map (fun sub => action :: sub))

/-- Historical `Agent.evaluatePolicy(policy)`: iterate `predict` along the
policy from the current belief, summing the per-step EFE scores of the
predicted beliefs. -/
def evaluatePolicy (predict : B → A → B) (computeEFE : B → ℚ) : B → List A → ℚ
  | _, [] => 0
  | currentBelief, action :: rest =>
    let predicted := predict currentBelief action
    computeEFE predicted + evaluatePolicy predict computeEFE predicted rest

/-- The belief reached by iterating `predict` along a policy. -/
def finalBelief (predict : B → A → B) : B → List A → B
  | b, [] => b
  | b, action :: rest => finalBelief predict (predict b action) rest

/-- Concrete instance exercising `DBelief.update_normalizes`. -/
def bC2 : DBelief Bool :=
  { states := [true, false], distribution := fun s => if s then 1/2 else 1/2 }

/-- Likelihood used in the C2 witness. -/
def lC2 : Bool → ℚ := fun s => if s then 9/10 else 1/10

/-- Observation model of the C3 witness: scale 1, bias 0, noise 0.1. -/
def mC3 : GaussianObservation := { scale := 1, bias := 0, noise := 1/10 }

/-- Prior of the C3 witness: N(1, 0.1). -/
def bC3 : GaussianBelief := { mean := 1, variance := 1/10 }

/-- Observation model of the C5 witness. -/
def mC5 : ObservationModel Bool Bool :=
  { observations := [true, false]
    prob := fun o s => if o = s then 9/10 else 1/10 }

/-- Predicted belief of the C5 witness. -/
def bC5 : DBelief Bool :=
  { states := [true, false], distribution := fun _ => 1/2 }

/-- Preferences of the C5 witness: the `false` observation has no
configured entry, exercising the `−10` default. -/
def prefC5 : Bool → Option ℚ := fun o => if o then some 0 else none

/-- Concentration model of the C6 and C10 witnesses (the weak-prior example
of the source documentation). -/
def mC6 : DirichletObservation String String :=
  { observations := ["see_safe", "see_danger"]
    states := ["safe", "danger"]
    concentrations := fun o s =>
      if o = "see_safe" then (if s = "safe" then 2 else 1)
      else (if s = "safe" then 1 else 2) }

/-- Posterior used in the C6 witness. -/
def postC6 : String → ℚ := fun s => if s = "safe" then 4/5 else 1/5

/-- Result of the C6 witness update. -/
def mC6learned : DirichletObservation String String :=
  { mC6 with concentrations := fun o s =>
      if o = "see_safe" ∧ s ∈ mC6.states then mC6.concentrations o s + postC6 s
      else mC6.concentrations o s }

/-- Concrete agent built from an erroneous configuration (empty action
set); the action and observation types are `String` and `ℚ`, the belief a
plain rational. -/
def agC4 : Agent String ℚ ℚ :=
  mkAgent (7/10) [] (fun b _ => b) (fun b _ => b) (fun _ => 0) 1 3 1 [] 0

/-- Belief putting probability `1 − 1e-10` on `true`; together with `qC8`
this refutes the unrestricted Gibbs inequality for the floored `kl`. -/
def pC8 : DBelief Bool :=
  { states := [true, false]
    distribution := fun s => if s then 1 - 1/10000000000 else 1/10000000000 }

/-- Belief putting probability `1` on `true` and `0` on `false`. -/
def qC8 : DBelief Bool :=
  { states := [true, false], distribution := fun s => if s then 1 else 0 }

/-- Uniform belief of the C8 witness. -/
def pW8 : DBelief Bool :=
  { states := [true, false], distribution := fun _ => 1/2 }

/-- Fully supported comparison belief of the C8 witness. -/
def qW8 : DBelief Bool :=
  { states := [true, false], distribution := fun s => if s then 3/4 else 1/4 }

def eW : ℚ → ℚ := fun x => 1 + x

def agC9 : Agent Bool ℚ ℚ :=
  mkAgent (1/2) [false, true] (fun b _ => b) (fun b _ => b) (fun _ => 0) 42 1 1 [] 0

def agC9x : Agent Bool ℚ ℚ := { agC9 with rng := Random.nextState agC9.rng }

/-- Second, independently constructed agent with the same configuration as
`agC9`. -/
def agC9b : Agent Bool ℚ ℚ :=
  mkAgent (1/2) [false, true] (fun b _ => b) (fun b _ => b) (fun _ => 0) 42 1 1 [] 0

/-- Concrete two-action, horizon-2, width-0 agent for the C1 witness. -/
def agC1 : Agent Nat ℚ ℚ :=
  mkAgent (1/2) [0, 1] (fun b a => b + a) (fun b _ => b) (fun b => b) 7 2 1 [] 0

/-- Entries of a nonnegative list with sum zero are all zero. -/
theorem list_all_zero_of_sum_zero {l : List ℚ} (h : ∀ x ∈ l, 0 ≤ x) (hs : l.sum = 0) :
    ∀ x ∈ l, x = 0 := by
  induction l with
  | nil => intro x hx; cases hx
  | cons a t ih =>
    have ha : 0 ≤ a := h a (by simp)
    have ht : ∀ x ∈ t, 0 ≤ x := fun x hx => h x (by simp [hx])
    have hts : 0 ≤ t.sum := List.sum_nonneg ht
    have hsum : a + t.sum = 0 := by simpa using hs
    have ha0 : a = 0 := by linarith
    have ht0 : t.sum = 0 := by linarith
    intro x hx
    rcases List.mem_cons.mp hx with h1 | h1
    · exact h1 ▸ ha0
    · exact ih ht ht0 x h1

/-- Dividing every mapped entry by a constant divides the sum. -/
theorem list_sum_map_div {α : Type} (l : List α) (f : α → ℚ) (c : ℚ) :
    (l.map (fun s => f s / c)).sum = (l.map f).sum / c := by
  induction l with
  | nil => simp
  | cons a t ih => simp [ih, div_add_div_same]

/-- C2: for every discrete prior and likelihood map with nonnegative
entries, `update` returns the belief proportional to `likelihood · prior`:
when the weighted sum is positive the returned probabilities sum to `1`;
when it is exactly `0` the result assigns `0` to every state — left
unnormalized, never restoring the prior and never raising. -/
theorem DBelief.update_normalizes [DecidableEq S] (b : DBelief S) (likelihood : S → ℚ)
    (hp : ∀ s ∈ b.states, 0 ≤ b.distribution s)
    (hl : ∀ s ∈ b.states, 0 ≤ likelihood s) :
    (0 < DBelief.weightedSum b likelihood →
      ((b.update likelihood).states.map ((b.update likelihood).probability)).sum = 1)
    ∧ (DBelief.weightedSum b likelihood = 0 →
      ∀ s, (b.update likelihood).probability s = 0) := by
  constructor
  · intro hpos
    have hne : DBelief.weightedSum b likelihood ≠ 0 := ne_of_gt hpos
    have hstates : (b.update likelihood).states = b.states := rfl
    have hmap : (b.update likelihood).states.map ((b.update likelihood).probability)
        = b.states.map (fun s => b.distribution s * likelihood s /
            DBelief.weightedSum b likelihood) := by
      rw [hstates]
      refine List.map_congr_left ?_
      intro s hs
      simp only [DBelief.update, DBelief.probability]
      rw [if_pos hs, if_pos hpos]
    rw [hmap, list_sum_map_div]
    exact div_self (by simpa [DBelief.weightedSum] using hne)
  · intro hzero s
    have hprod : ∀ x ∈ b.states.map (fun s => b.distribution s * likelihood s), 0 ≤ x := by
      intro x hx
      rcases List.mem_map.mp hx with ⟨t, ht, rfl⟩
      exact mul_nonneg (hp t ht) (hl t ht)
    have hall := list_all_zero_of_sum_zero hprod (by simpa [DBelief.weightedSum] using hzero)
    simp only [DBelief.update, DBelief.probability]
    by_cases hs : s ∈ b.states
    · rw [if_pos hs]
      have hterm : b.distribution s * likelihood s = 0 :=
        hall _ (List.mem_map.mpr ⟨s, hs, rfl⟩)
      rw [hzero]
      simp [hterm]
    · rw [if_neg hs]

/-- Witness for C2 at a concrete prior and likelihood. -/
theorem DBelief.update_normalizes_witness :
    0 < DBelief.weightedSum bC2 lC2
    ∧ ((bC2.update lC2).states.map ((bC2.update lC2).probability)).sum = 1 := by
  have hpos : 0 < DBelief.weightedSum bC2 lC2 := by
    norm_num [DBelief.weightedSum, bC2, lC2]
  exact ⟨hpos,
    (DBelief.update_normalizes bC2 lC2
      (by intro s hs; cases s <;> norm_num [bC2])
      (by intro s hs; cases s <;> norm_num [lC2])).1 hpos⟩

/-- C3: the Kalman update returns posterior mean `μ + K·(y − c·μ − b)` and
posterior variance `(1 − K·c)·σ²` with `K = σ²·c / (c²·σ² + R)`; moreover
with scale `1`, bias `0`, noise `R > 0` and `y ≠ μ` the posterior mean
moves strictly toward `y` and the posterior variance strictly shrinks. -/
theorem GaussianObservation.update_correct (m : GaussianObservation) (b : GaussianBelief)
    (y : ℚ) (hv : 0 < b.variance) (hR : 0 < m.noise) :
    ((m.update b y).mean = b.mean +
        b.variance * m.scale / (m.scale * m.scale * b.variance + m.noise)
          * (y - m.scale * b.mean - m.bias)
      ∧ (m.update b y).variance =
        (1 - b.variance * m.scale / (m.scale * m.scale * b.variance + m.noise) * m.scale)
          * b.variance)
    ∧ (m.scale = 1 → m.bias = 0 → y ≠ b.mean →
        ((b.mean < y → b.mean < (m.update b y).mean ∧ (m.update b y).mean < y)
          ∧ (y < b.mean → y < (m.update b y).mean ∧ (m.update b y).mean < b.mean))
        ∧ (m.update b y).variance < b.variance) := by
  constructor
  · constructor
    · simp only [GaussianObservation.update]
      ring_nf
    · simp only [GaussianObservation.update]
      ring_nf
  · intro hc hb hne
    have hSpos : 0 < b.variance + m.noise := by linarith
    have hK : (m.update b y).mean = b.mean + b.variance / (b.variance + m.noise) * (y - b.mean)
        ∧ (m.update b y).variance = (1 - b.variance / (b.variance + m.noise)) * b.variance := by
      constructor <;> simp only [GaussianObservation.update, hc, hb] <;> ring_nf
    have hKpos : 0 < b.variance / (b.variance + m.noise) := div_pos hv hSpos
    have hKlt : b.variance / (b.variance + m.noise) < 1 :=
      (div_lt_one hSpos).mpr (by linarith)
    constructor
    · constructor
      · intro hlt
        constructor
        · rw [hK.1]
          nlinarith
        · rw [hK.1]
          nlinarith
      · intro hlt
        constructor
        · rw [hK.1]
          nlinarith
        · rw [hK.1]
          nlinarith
    · rw [hK.2]
      nlinarith

/-- Witness for C3: observing 3.2 from prior N(1, 0.1) with a unit-scale
noise-0.1 sensor strictly shifts the mean toward 3.2 and shrinks the
variance. -/
theorem GaussianObservation.update_correct_witness :
    bC3.mean < (mC3.update bC3 (16/5)).mean
    ∧ (mC3.update bC3 (16/5)).mean < 16/5
    ∧ (mC3.update bC3 (16/5)).variance < bC3.variance := by
  have h := (GaussianObservation.update_correct mC3 bC3 (16/5)
    (by norm_num [bC3]) (by norm_num [mC3])).2 rfl rfl
    (by norm_num [bC3])
  have hlt : bC3.mean < 16/5 := by norm_num [bC3]
  exact ⟨(h.1.1 hlt).1, (h.1.1 hlt).2, h.2⟩

/-- Folding the guarded risk accumulation over a list of observations with
nonnegative expected probabilities subtracts the full dot product. -/
theorem foldl_risk_eq {O : Type} (E P : O → ℚ) (l : List O) (a : ℚ)
    (hE : ∀ o ∈ l, 0 ≤ E o) :
    l.foldl (fun risk o => if 0 < E o then risk - E o * P o else risk) a
      = a - (l.map (fun o => E o * P o)).sum := by
  induction l generalizing a with
  | nil => simp
  | cons o t ih =>
    have ho : 0 ≤ E o := hE o (by simp)
    have ht : ∀ x ∈ t, 0 ≤ E x := fun x hx => hE x (by simp [hx])
    by_cases hpos : 0 < E o
    · simp only [List.foldl_cons, if_pos hpos, List.map_cons, List.sum_cons]
      rw [ih (a - E o * P o) ht]
      ring
    · have hzero : E o = 0 := le_antisymm (not_lt.mp hpos) ho
      simp only [List.foldl_cons, if_neg hpos, List.map_cons, List.sum_cons]
      rw [ih a ht, hzero]
      ring

/-- C5: for a predicted belief with nonnegative entries and a model with
nonnegative likelihoods, the risk term equals `−Σ_o Q(o)·pref(o)` with
`Q(o) = Σ_s P(o|s)·Q(s)` and `pref` defaulting to `−10` on observations
without a configured preference (skipping `Q(o) = 0` terms changes
nothing). -/
theorem computeRisk_eq_riskFormula [DecidableEq S] (b : DBelief S)
    (m : ObservationModel O S) (preferences : O → Option ℚ)
    (hobs : ∀ o s, 0 ≤ m.prob o s)
    (hp : ∀ s ∈ b.states, 0 ≤ b.distribution s) :
    computeRisk b m preferences = riskFormula b m preferences := by
  have hprob : ∀ s, 0 ≤ b.probability s := by
    intro s
    by_cases hs : s ∈ b.states
    · simpa [DBelief.probability, hs] using hp s hs
    · simp [DBelief.probability, hs]
  have hE : ∀ o ∈ m.observations, 0 ≤ expectedObsProb m b o := by
    intro o _
    refine List.sum_nonneg ?_
    intro x hx
    rcases List.mem_map.mp hx with ⟨s, _, rfl⟩
    exact mul_nonneg (hobs o s) (hprob s)
  have h := foldl_risk_eq (E := fun o => expectedObsProb m b o)
    (P := fun o => (preferences o).getD (-10)) m.observations 0 hE
  simpa [computeRisk, riskFormula] using h

/-- Witness for C5 at a concrete model with one missing preference entry. -/
theorem computeRisk_eq_riskFormula_witness :
    (∀ s ∈ bC5.states, 0 ≤ bC5.distribution s)
    ∧ computeRisk bC5 mC5 prefC5 = riskFormula bC5 mC5 prefC5 := by
  refine ⟨by intro s hs; norm_num [bC5], ?_⟩
  exact computeRisk_eq_riskFormula bC5 mC5 prefC5
    (by intro o s; cases o <;> cases s <;> norm_num [mC5])
    (by intro s hs; norm_num [bC5])

/-- C6: a successful `DirichletObservation.learn(o*, posterior)` performs
`a[o*][s] += posterior(s)` for every configured state, leaves every entry
of any other observation unchanged, decreases no entry when the posterior
is nonnegative, and strictly increases `a[o*][s]` wherever the posterior
puts positive mass. -/
theorem DirichletObservation.learn_increments [DecidableEq O] [DecidableEq S]
    (m : DirichletObservation O S) (observation : O) (post : S → ℚ)
    (m2 : DirichletObservation O S)
    (hlearn : m.learn observation post = some m2) :
    (∀ s ∈ m.states,
      m2.concentrations observation s = m.concentrations observation s + post s)
    ∧ (∀ o, o ≠ observation → ∀ s, m2.concentrations o s = m.concentrations o s)
    ∧ ((∀ s, 0 ≤ post s) → ∀ o s, m.concentrations o s ≤ m2.concentrations o s)
    ∧ (∀ s ∈ m.states, 0 < post s →
        m.concentrations observation s < m2.concentrations observation s) := by
  by_cases hmem : observation ∈ m.observations
  · rw [DirichletObservation.learn, if_pos hmem] at hlearn
    have hm2 : m2 = { m with concentrations := fun o s =>
        if o = observation ∧ s ∈ m.states then m.concentrations o s + post s
        else m.concentrations o s } := (Option.some.injEq _ _).mp hlearn.symm
    subst hm2
    refine ⟨?_, ?_, ?_, ?_⟩
    · intro s hs
      simp [hs]
    · intro o ho s
      simp [ho]
    · intro hpost o s
      by_cases hcond : o = observation ∧ s ∈ m.states
      · have := hpost s
        show m.concentrations o s ≤ if o = observation ∧ s ∈ m.states then
          m.concentrations o s + post s else m.concentrations o s
        rw [if_pos hcond]
        linarith
      · show m.concentrations o s ≤ if o = observation ∧ s ∈ m.states then
          m.concentrations o s + post s else m.concentrations o s
        rw [if_neg hcond]
    · intro s hs hpos
      have hc : observation = observation ∧ s ∈ m.states := ⟨rfl, hs⟩
      show m.concentrations observation s < if observation = observation ∧ s ∈ m.states then
        m.concentrations observation s + post s else m.concentrations observation s
      rw [if_pos hc]
      linarith
  · rw [DirichletObservation.learn, if_neg hmem] at hlearn
    cases hlearn

/-- Witness for C6: learning `see_safe` with posterior (0.8, 0.2) increments
the `see_safe` row entrywise, fixes the `see_danger` row, and strictly
increases the reinforced cell. -/
theorem DirichletObservation.learn_increments_witness :
    mC6learned.concentrations "see_safe" "safe"
        = mC6.concentrations "see_safe" "safe" + postC6 "safe"
    ∧ mC6learned.concentrations "see_danger" "safe"
        = mC6.concentrations "see_danger" "safe"
    ∧ mC6.concentrations "see_safe" "safe" < mC6learned.concentrations "see_safe" "safe" := by
  have h := DirichletObservation.learn_increments mC6 "see_safe" postC6 mC6learned
    (by rw [DirichletObservation.learn, if_pos (by simp [mC6])]; rfl)
  exact ⟨h.1 "safe" (by simp [mC6]),
    h.2.1 "see_danger" (by simp) "safe",
    h.2.2.2 "safe" (by simp [mC6]) (by norm_num [postC6])⟩

/-- C10: `DirichletObservation.learn` on an observation key absent from the
concentration structure reaches the error branch (`undefined` row access),
while the read-side `probability` and `getLikelihood` return `0` for the
same unknown key. -/
theorem DirichletObservation.learn_unknown_key [DecidableEq O] [DecidableEq S]
    (m : DirichletObservation O S) (o : O) (post : S → ℚ)
    (h : o ∉ m.observations) :
    m.learn o post = none
    ∧ (∀ s, m.probability o s = 0)
    ∧ (∀ s, m.getLikelihood o s = 0) := by
  refine ⟨?_, ?_, ?_⟩
  · rw [DirichletObservation.learn, if_neg h]
  · intro s
    rw [DirichletObservation.probability, if_neg (fun hc => h hc.1)]
  · intro s
    rw [DirichletObservation.getLikelihood, if_neg (fun hc => h hc.1)]

/-- Witness for C10 at the unknown key `see_cookie`. -/
theorem DirichletObservation.learn_unknown_key_witness :
    mC6.learn "see_cookie" postC6 = none
    ∧ mC6.probability "see_cookie" "safe" = 0
    ∧ mC6.getLikelihood "see_cookie" "safe" = 0 := by
  have h := DirichletObservation.learn_unknown_key mC6 "see_cookie" postC6
    (by simp [mC6])
  exact ⟨h.1, h.2.1 "safe", h.2.2 "safe"⟩

/-- Expanding an empty beam population yields an empty population. -/
theorem beamStep_nil (ag : Agent A B O) : beamStep ag [] = [] := by
  simp [beamStep]

/-- Every beam-search iteration count leaves the empty population empty. -/
theorem actBeams_nil_of_no_actions (ag : Agent A B O) (h : ag.actions = []) :
    actBeams ag = [] := by
  have hinit : initBeams ag = [] := by simp [initBeams, h]
  rw [actBeams, hinit]
  exact Function.iterate_fixed (beamStep_nil ag) _

/-- An agent with an empty action set fails inside `act` — at the
`exp.reduce` of the softmax — not at construction. -/
theorem act_none_of_no_actions [DecidableEq A] (e : ℚ → ℚ) (ag : Agent A B O)
    (h : ag.actions = []) : ag.act e = none := by
  rw [Agent.act, actBeams_nil_of_no_actions ag h]
  rfl

/-- C4 (amended): the constructors perform no validation.  `mkAgent`
accepts an empty action set and stores the belief unchanged — the failure
only surfaces later inside `act` — and `GaussianBelief` stores any
variance, including non-positive ones, unchecked. -/
theorem constructors_accept_invalid_config [DecidableEq A] (e : ℚ → ℚ) (belief : B)
    (predict : B → A → B) (obsUpdate : B → O → B) (computeEFE : B → ℚ)
    (seed : Nat) (planningHorizon precision beamWidth : ℚ) (habits : List (A × ℚ)) :
    (mkAgent belief ([] : List A) predict obsUpdate computeEFE seed planningHorizon
        precision habits beamWidth).belief = belief
    ∧ Agent.act e (mkAgent belief ([] : List A) predict obsUpdate computeEFE seed
        planningHorizon precision habits beamWidth) = none
    ∧ ∀ mean vr : ℚ, (GaussianBelief.mk mean vr).variance = vr := by
  refine ⟨rfl, ?_, fun _ _ => rfl⟩
  exact act_none_of_no_actions e _ rfl

/-- Counterexample for C4: the erroneous configuration is accepted at
construction (the belief is stored, no error is raised) and the failure
happens only later, inside the `act` search. -/
theorem constructors_accept_invalid_config_counterexample :
    agC4.belief = 7/10 ∧ Agent.act (fun q => 1 + q) agC4 = none :=
  ⟨rfl, act_none_of_no_actions (fun q => 1 + q) agC4 rfl⟩

/-- Subtraction distributes over mapped list sums. -/
theorem list_sum_map_sub {α : Type} (l : List α) (f g : α → ℝ) :
    (l.map (fun s => f s - g s)).sum = (l.map f).sum - (l.map g).sum := by
  induction l with
  | nil => simp
  | cons a t ih => simp only [List.map_cons, List.sum_cons, ih]; ring

/-- Casting a mapped rational sum into the reals termwise. -/
theorem list_sum_ratCast {α : Type} (l : List α) (f : α → ℚ) :
    (((l.map f).sum : ℚ) : ℝ) = (l.map (fun s => ((f s : ℚ) : ℝ))).sum := by
  induction l with
  | nil => simp
  | cons a t ih => simp only [List.map_cons, List.sum_cons]; push_cast [ih]; ring

/-- C8 (amended): `kl(p, p) = 0` always, and the Gibbs inequality
`0 ≤ kl(p, q)` holds for valid beliefs over the same state list provided
`q` is positive on the support of `p` — that is, provided the `1e-10`
floor substitution is never triggered on a counted term.  (When the floor
does trigger, `kl` can be negative; see the counterexample.) -/
theorem DBelief.kl_gibbs [DecidableEq S] (p q : DBelief S)
    (hp0 : ∀ s ∈ p.states, 0 ≤ p.probability s)
    (hq0 : ∀ s ∈ p.states, 0 ≤ q.probability s)
    (hp1 : (p.states.map (fun s => p.probability s)).sum = 1)
    (hq1 : (p.states.map (fun s => q.probability s)).sum ≤ 1)
    (hsupp : ∀ s ∈ p.states, 0 < p.probability s → 0 < q.probability s) :
    p.kl p = 0 ∧ 0 ≤ p.kl q := by
  constructor
  · have hterm : ∀ s ∈ p.states,
        (if 0 < p.probability s then
          (p.probability s : ℝ) * Real.log ((p.probability s : ℝ) /
            ((if p.probability s = 0 then (1 : ℚ) / 10000000000 else p.probability s) : ℚ))
        else 0) = 0 := by
      intro s _
      by_cases hpos : 0 < p.probability s
      · rw [if_pos hpos, if_neg (ne_of_gt hpos)]
        rw [div_self (by exact_mod_cast ne_of_gt hpos), Real.log_one, mul_zero]
      · rw [if_neg hpos]
    exact List.sum_eq_zero (by
      intro x hx
      rcases List.mem_map.mp hx with ⟨s, hs, rfl⟩
      exact hterm s hs)
  · have hbound : ∀ s ∈ p.states,
        (fun s => ((p.probability s : ℚ) : ℝ) - ((q.probability s : ℚ) : ℝ)) s ≤
        (fun s =>
          if 0 < p.probability s then
            (p.probability s : ℝ) * Real.log ((p.probability s : ℝ) /
              ((if q.probability s = 0 then (1 : ℚ) / 10000000000 else q.probability s) : ℚ))
          else 0) s := by
      intro s hs
      by_cases hpos : 0 < p.probability s
      · have hqpos : 0 < q.probability s := hsupp s hs hpos
        simp only [if_pos hpos, if_neg (ne_of_gt hqpos)]
        have ha : (0 : ℝ) < (p.probability s : ℚ) := by exact_mod_cast hpos
        have hb : (0 : ℝ) < (q.probability s : ℚ) := by exact_mod_cast hqpos
        have h1 : Real.log ((q.probability s : ℚ) / (p.probability s : ℚ))
            ≤ ((q.probability s : ℚ) : ℝ) / (p.probability s : ℚ) - 1 :=
          Real.log_le_sub_one_of_pos (div_pos hb ha)
        have h1b : Real.log (((q.probability s : ℚ) : ℝ) / (p.probability s : ℚ))
            = Real.log (q.probability s : ℚ) - Real.log (p.probability s : ℚ) :=
          Real.log_div (ne_of_gt hb) (ne_of_gt ha)
        have h2 : ((p.probability s : ℚ) : ℝ) *
            (Real.log (q.probability s : ℚ) - Real.log (p.probability s : ℚ))
            ≤ ((p.probability s : ℚ) : ℝ) * (((q.probability s : ℚ) : ℝ) / (p.probability s : ℚ) - 1) :=
          mul_le_mul_of_nonneg_left (h1b ▸ h1) ha.le
        have h3 : ((p.probability s : ℚ) : ℝ) * (((q.probability s : ℚ) : ℝ) / (p.probability s : ℚ) - 1)
            = ((q.probability s : ℚ) : ℝ) - (p.probability s : ℚ) := by
          field_simp
        have h4 : Real.log (((p.probability s : ℚ) : ℝ) / (q.probability s : ℚ))
            = Real.log (p.probability s : ℚ) - Real.log (q.probability s : ℚ) :=
          Real.log_div (ne_of_gt ha) (ne_of_gt hb)
        rw [h4]
        nlinarith [h2, h3]
      · have hzero : p.probability s = 0 := le_antisymm (not_lt.mp hpos) (hp0 s hs)
        have hqc : (0 : ℝ) ≤ (q.probability s : ℚ) := by exact_mod_cast hq0 s hs
        show ((p.probability s : ℚ) : ℝ) - ((q.probability s : ℚ) : ℝ) ≤
          if 0 < p.probability s then
            (p.probability s : ℝ) * Real.log ((p.probability s : ℝ) /
              ((if q.probability s = 0 then (1 : ℚ) / 10000000000 else q.probability s) : ℚ))
          else 0
        rw [if_neg hpos, hzero]
        push_cast
        linarith
    have hsum := List.sum_le_sum hbound
    have hcast1 : (p.states.map (fun s => ((p.probability s : ℚ) : ℝ))).sum = 1 := by
      rw [← list_sum_ratCast]
      exact_mod_cast congrArg (fun x : ℚ => ((x : ℚ) : ℝ)) hp1
    have hcast2 : (p.states.map (fun s => ((q.probability s : ℚ) : ℝ))).sum ≤ 1 := by
      rw [← list_sum_ratCast]
      exact_mod_cast hq1
    have hX : (p.states.map
        (fun s => ((p.probability s : ℚ) : ℝ) - ((q.probability s : ℚ) : ℝ))).sum
        = (p.states.map (fun s => ((p.probability s : ℚ) : ℝ))).sum
          - (p.states.map (fun s => ((q.probability s : ℚ) : ℝ))).sum :=
      list_sum_map_sub p.states _ _
    have hkl : p.kl q = (p.states.map (fun s =>
        if 0 < p.probability s then
          (p.probability s : ℝ) * Real.log ((p.probability s : ℝ) /
            ((if q.probability s = 0 then (1 : ℚ) / 10000000000 else q.probability s) : ℚ))
        else 0)).sum := rfl
    rw [hkl]
    calc (0 : ℝ) ≤ 1 - (p.states.map (fun s => ((q.probability s : ℚ) : ℝ))).sum := by
            linarith
      _ = (p.states.map
            (fun s => ((p.probability s : ℚ) : ℝ) - ((q.probability s : ℚ) : ℝ))).sum := by
            rw [hX, hcast1]
      _ ≤ _ := hsum

/-- Counterexample for C8: `pC8` and `qC8` are valid beliefs over the same
two states (nonnegative, summing to 1), yet `kl(pC8, qC8)` is strictly
negative: the state `false` has `p = 1e-10 > 0` and `q = 0`, so the floor
makes its term vanish while the `true` term is `(1−1e-10)·log(1−1e-10) < 0`. -/
theorem DBelief.kl_gibbs_counterexample :
    ((pC8.states.map (fun s => pC8.probability s)).sum = 1
      ∧ (qC8.states.map (fun s => qC8.probability s)).sum = 1
      ∧ (∀ s ∈ pC8.states, 0 ≤ pC8.probability s)
      ∧ (∀ s ∈ qC8.states, 0 ≤ qC8.probability s))
    ∧ pC8.kl qC8 < 0 := by
  refine ⟨⟨?_, ?_, ?_, ?_⟩, ?_⟩
  · norm_num [pC8, DBelief.probability]
  · norm_num [qC8, DBelief.probability]
  · intro s hs; cases s <;> norm_num [pC8, DBelief.probability]
  · intro s hs; cases s <;> norm_num [qC8, DBelief.probability]
  · have hkl : pC8.kl qC8
        = ((1 - 1/10000000000 : ℚ) : ℝ) * Real.log (((1 - 1/10000000000 : ℚ) : ℝ) / ((1 : ℚ) : ℝ))
          + (((1/10000000000 : ℚ) : ℝ) * Real.log (((1/10000000000 : ℚ) : ℝ) / ((1/10000000000 : ℚ) : ℝ))
          + 0) := by
      simp only [DBelief.kl, pC8, qC8, DBelief.probability, List.map_cons, List.map_nil,
        List.sum_cons, List.sum_nil]
      norm_num
    rw [hkl]
    have h2 : (((1/10000000000 : ℚ) : ℝ) / ((1/10000000000 : ℚ) : ℝ)) = 1 :=
      div_self (by norm_num)
    rw [h2, Real.log_one, mul_zero, add_zero, add_zero]
    have h3 : (((1 - 1/10000000000 : ℚ) : ℝ) / ((1 : ℚ) : ℝ)) = ((1 - 1/10000000000 : ℚ) : ℝ) := by
      norm_num
    rw [h3]
    apply mul_neg_of_pos_of_neg
    · push_cast; norm_num
    · apply Real.log_neg <;> push_cast <;> norm_num

/-- Witness for the amended C8 at concrete fully-supported beliefs. -/
theorem DBelief.kl_gibbs_witness :
    (pW8.states.map (fun s => pW8.probability s)).sum = 1
    ∧ pW8.kl pW8 = 0 ∧ 0 ≤ pW8.kl qW8 := by
  have h := DBelief.kl_gibbs pW8 qW8
    (by intro s hs; cases s <;> norm_num [pW8, DBelief.probability])
    (by intro s hs; cases s <;> norm_num [qW8, DBelief.probability])
    (by norm_num [pW8, DBelief.probability])
    (by norm_num [pW8, qW8, DBelief.probability])
    (by intro s hs hpos; cases s <;> norm_num [qW8, DBelief.probability])
  exact ⟨by norm_num [pW8, DBelief.probability], h.1, h.2⟩

/-- Appending one action to a policy adds the EFE score of the one-step
prediction from the final belief of the policy. -/
theorem evaluatePolicy_append (predict : B → A → B) (computeEFE : B → ℚ)
    (b : B) (pol : List A) (a : A) :
    evaluatePolicy predict computeEFE b (pol ++ [a])
      = evaluatePolicy predict computeEFE b pol
        + computeEFE (predict (finalBelief predict b pol) a) := by
  induction pol generalizing b with
  | nil => simp [evaluatePolicy, finalBelief]
  | cons x t ih =>
    simp only [List.cons_append, evaluatePolicy, finalBelief, List.append_eq]
    rw [ih]
    ring

/-- Appending one action to a policy advances the final belief by one
prediction. -/
theorem finalBelief_append (predict : B → A → B) (b : B) (pol : List A) (a : A) :
    finalBelief predict b (pol ++ [a]) = predict (finalBelief predict b pol) a := by
  induction pol generalizing b with
  | nil => simp [finalBelief]
  | cons x t ih => simp only [List.cons_append, finalBelief]; exact ih _

/-- The recursive policy enumeration can equally be unrolled from the right:
depth `d + 1` policies are the depth `d` policies extended by every action,
in the same order. -/
theorem generatePolicies_succ (actions : List A) (d : Nat) :
    generatePolicies actions (d + 2)
      = (generatePolicies actions (d + 1)).flatMap
          (fun pol => actions.map (fun a => pol ++ [a])) := by
  induction d with
  | zero =>
    show actions.flatMap (fun action => (actions.map (fun a => [a])).map
        (fun sub => action :: sub))
      = (actions.map (fun a => [a])).flatMap (fun pol => actions.map (fun a => pol ++ [a]))
    simp only [List.flatMap_map, List.map_map, Function.comp_def]
    rfl
  | succ e ih =>
    calc generatePolicies actions (e + 1 + 2)
        = actions.flatMap (fun action =>
            (generatePolicies actions (e + 2)).map (fun sub => action :: sub)) := rfl
      _ = actions.flatMap (fun action =>
            ((generatePolicies actions (e + 1)).flatMap
              (fun pol => actions.map (fun a => pol ++ [a]))).map
                (fun sub => action :: sub)) := by rw [ih]
      _ = actions.flatMap (fun action =>
            (generatePolicies actions (e + 1)).flatMap
              (fun pol => actions.map (fun a => action :: (pol ++ [a])))) := by
          simp only [List.map_flatMap, List.map_map, Function.comp_def]
      _ = actions.flatMap (fun action =>
            (generatePolicies actions (e + 1)).flatMap
              (fun pol => actions.map (fun a => (action :: pol) ++ [a]))) := by
          simp only [List.cons_append]
      _ = actions.flatMap (fun action =>
            ((generatePolicies actions (e + 1)).map (fun sub => action :: sub)).flatMap
              (fun pol => actions.map (fun a => pol ++ [a]))) := by
          simp only [List.flatMap_map]
      _ = (actions.flatMap (fun action =>
            (generatePolicies actions (e + 1)).map (fun sub => action :: sub))).flatMap
              (fun pol => actions.map (fun a => pol ++ [a])) := by
          rw [List.flatMap_assoc]
      _ = (generatePolicies actions (e + 1 + 1)).flatMap
            (fun pol => actions.map (fun a => pol ++ [a])) := rfl

/-- A `flatMap` whose blocks share one length multiplies lengths. -/
theorem list_length_flatMap_const {α γ : Type} (l : List α) (f : α → List γ) (c : Nat)
    (h : ∀ a ∈ l, (f a).length = c) : (l.flatMap f).length = l.length * c := by
  induction l with
  | nil => simp
  | cons a t ih =>
    simp only [List.flatMap_cons, List.length_append, List.length_cons]
    rw [h a (by simp), ih (fun x hx => h x (by simp [hx]))]
    ring

/-- The recursive enumeration produces `|actions|^h` policies for `h ≥ 1`. -/
theorem generatePolicies_length (actions : List A) (h : Nat) (hh : 1 ≤ h) :
    (generatePolicies actions h).length = actions.length ^ h := by
  induction h with
  | zero => cases hh
  | succ d ih =>
    cases d with
    | zero => simp [generatePolicies]
    | succ e =>
      rw [generatePolicies_succ actions e]
      rw [list_length_flatMap_const _ _ actions.length (by intro a _; simp)]
      rw [ih (by omega)]
      ring

/-- With beam width `0` the pruning branch is never taken. -/
theorem beamStep_no_prune (ag : Agent A B O) (hw : ag.beamWidth = 0)
    (beams : List (BeamEntry A B)) :
    beamStep ag beams = beams.flatMap (fun beam =>
      ag.actions.map (fun action =>
        { policy := beam.policy ++ [action]
          efe := beam.efe + ag.computeEFE (ag.predict beam.belief action)
          belief := ag.predict beam.belief action })) := by
  rw [beamStep, if_neg]
  rw [hw]
  simp

/-- With beam width `0`, `k` expansion rounds turn the initial beams into
exactly the depth-`k+1` recursive policy enumeration, each entry carrying
the recursive cumulative EFE and final belief. -/
theorem actBeams_no_prune (ag : Agent A B O) (hw : ag.beamWidth = 0) (k : Nat) :
    (beamStep ag)^[k] (initBeams ag)
      = (generatePolicies ag.actions (k + 1)).map
          (fun pol =>
            { policy := pol
              efe := evaluatePolicy ag.predict ag.computeEFE ag.belief pol
              belief := finalBelief ag.predict ag.belief pol }) := by
  induction k with
  | zero =>
    show initBeams ag = (ag.actions.map (fun a => [a])).map _
    rw [List.map_map]
    refine List.map_congr_left ?_
    intro a _
    simp [Function.comp, initBeams, evaluatePolicy, finalBelief]
  | succ k ih =>
    rw [Function.iterate_succ_apply', ih, beamStep_no_prune ag hw]
    rw [generatePolicies_succ ag.actions k]
    rw [List.flatMap_map, List.map_flatMap]
    refine congrArg (fun f => (generatePolicies ag.actions (k + 1)).flatMap f) ?_
    funext pol
    rw [List.map_map]
    refine congrArg (fun f => List.map f ag.actions) ?_
    funext a
    simp [Function.comp_def, evaluatePolicy_append, finalBelief_append]

/-- C1: with beam width `0` (no pruning) and horizon `h ≥ 1`, the beam
search of the generic `act` considers exactly the `|actions|^h` policies of
the historical recursive enumeration, in the same order, and assigns each
the cumulative EFE of the historical `evaluatePolicy`. -/
theorem beamSearch_equiv_recursive (ag : Agent A B O)
    (hw : ag.beamWidth = 0) (hh : 1 ≤ ag.planningHorizon) :
    (actBeams ag).map (fun be => (be.policy, be.efe))
      = (generatePolicies ag.actions ag.planningHorizon).map
          (fun pol => (pol, evaluatePolicy ag.predict ag.computeEFE ag.belief pol))
    ∧ (actBeams ag).length = ag.actions.length ^ ag.planningHorizon := by
  have hk : ag.planningHorizon - 1 + 1 = ag.planningHorizon := by omega
  have h := actBeams_no_prune ag hw (ag.planningHorizon - 1)
  rw [hk] at h
  rw [actBeams, h]
  constructor
  · rw [List.map_map]
    rfl
  · rw [List.length_map]
    exact generatePolicies_length ag.actions ag.planningHorizon hh

/-- C9: a successful `act()` leaves the agent belief, previous belief and
previous action exactly as they were; the only mutated agent state is the
pseudo-random generator, which advances by exactly one draw. -/
theorem Agent.act_frame [DecidableEq A] (e : ℚ → ℚ) (ag ag2 : Agent A B O) (a : A)
    (h : ag.act e = some (a, ag2)) :
    ag2.belief = ag.belief ∧ ag2.previousBelief = ag.previousBelief
    ∧ ag2.previousAction = ag.previousAction ∧ ag2.rng = Random.nextState ag.rng
    ∧ ag2 = { ag with rng := Random.nextState ag.rng } := by
  unfold Agent.act at h
  rcases Option.bind_eq_some.mp h with ⟨probs, hsm, h2⟩
  rcases Option.map_eq_some'.mp h2 with ⟨action, hact, h3⟩
  have h32 : ag2 = { ag with rng := (Random.next ag.rng).2 } :=
    ((Prod.mk.injEq _ _ _ _).mp h3).2.symm
  subst h32
  exact ⟨rfl, rfl, rfl, rfl, rfl⟩

/-- Witness for C9: a concrete two-action agent with seed 42; `act` samples
`true` and the returned agent differs from the original only in the
generator state, advanced by one draw. -/
theorem Agent.act_frame_witness :
    agC9.act eW = some (true, agC9x)
    ∧ agC9x.belief = agC9.belief ∧ agC9x.previousBelief = agC9.previousBelief
    ∧ agC9x.previousAction = agC9.previousAction
    ∧ agC9x.rng = Random.nextState agC9.rng := by
  have hact : agC9.act eW = some (true, agC9x) := by
    with_unfolding_all rfl
  have h := Agent.act_frame eW agC9 agC9x true hact
  exact ⟨hact, h.1, h.2.1, h.2.2.1, h.2.2.2.1⟩

/-- C7: all agent operations are deterministic given a fixed seed and call
sequence — two independently constructed agents with identical
configuration produce identical results (action sequences and final
states) on every sequence of `observe`/`act`/`step` calls. -/
theorem runCalls_deterministic [DecidableEq A] (e : ℚ → ℚ) (belief : B) (actions : List A)
    (predict : B → A → B) (obsUpdate : B → O → B) (computeEFE : B → ℚ) (seed : Nat)
    (planningHorizon precision beamWidth : ℚ) (habits : List (A × ℚ))
    (calls : List (AgentCall O)) (ag1 ag2 : Agent A B O)
    (h1 : ag1 = mkAgent belief actions predict obsUpdate computeEFE seed
      planningHorizon precision habits beamWidth)
    (h2 : ag2 = mkAgent belief actions predict obsUpdate computeEFE seed
      planningHorizon precision habits beamWidth) :
    runCalls e ag1 calls = runCalls e ag2 calls := by
  subst h1
  subst h2
  rfl

/-- Witness for C7: the two independently constructed seed-42 agents agree
on a concrete observe/act/step call sequence. -/
theorem runCalls_deterministic_witness :
    runCalls eW agC9 [AgentCall.observe (1/4), AgentCall.act, AgentCall.step (3/4)]
      = runCalls eW agC9b [AgentCall.observe (1/4), AgentCall.act, AgentCall.step (3/4)] :=
  runCalls_deterministic eW (1/2) [false, true] (fun b _ => b) (fun b _ => b) (fun _ => 0)
    42 1 1 0 [] [AgentCall.observe (1/4), AgentCall.act, AgentCall.step (3/4)]
    agC9 agC9b rfl rfl

/-- Witness for C1 at a concrete unpruned horizon-2 agent: its four beams
match the recursive enumeration with identical cumulative EFEs. -/
theorem beamSearch_equiv_recursive_witness :
    (agC1.beamWidth = 0 ∧ 1 ≤ agC1.planningHorizon)
    ∧ ((actBeams agC1).map (fun be => (be.policy, be.efe))
        = (generatePolicies agC1.actions agC1.planningHorizon).map
            (fun pol => (pol, evaluatePolicy agC1.predict agC1.computeEFE agC1.belief pol))
      ∧ (actBeams agC1).length = agC1.actions.length ^ agC1.planningHorizon) := by
  have hw : agC1.beamWidth = 0 := by with_unfolding_all rfl
  have hh : 1 ≤ agC1.planningHorizon := by
    have : agC1.planningHorizon = 2 := by with_unfolding_all rfl
    omega
  exact ⟨⟨hw, hh⟩, beamSearch_equiv_recursive agC1 hw hh⟩
